import Mathlib

/-!
Shallow embedding of the OpenFOIA entity-extraction / entity-linking
subsystem (`openfoia/pipeline/extract.py`, `openfoia/pipeline/ocr.py`,
`openfoia/models.py`) together with proofs about its behaviour.

Python strings are modelled as `List Char` (`Str`); Python `float`
confidences as `ℚ`; Python dicts as insertion-ordered association lists.
-/

namespace OpenFoia

/-- Python strings, modelled as lists of characters. -/
abbrev Str := List Char

/-- Python `str.lower()` (per-character, ASCII case folding as in
`Char.toLower`). -/
def lowerStr (s : Str) : Str := s.map Char.toLower

/-- Python `str.upper()`. -/
def upperStr (s : Str) : Str := s.map Char.toUpper

/-- Python `str.strip()`: remove leading and trailing whitespace. -/
def stripStr (s : Str) : Str :=
  ((s.dropWhile Char.isWhitespace).reverse.dropWhile Char.isWhitespace).reverse

/-- `openfoia.models.EntityType` (`models.py` lines 85–94), a `str` enum. -/
inductive EntityType where
  | PERSON | ORGANIZATION | LOCATION | DATE | MONEY
  | DOCUMENT_ID | PHONE | EMAIL | ADDRESS
  deriving DecidableEq, Repr

/-- The `value` of each `EntityType` member: note the values are
*lowercase* strings in `models.py`. -/
def EntityType.value : EntityType → Str
  | .PERSON => "person".data
  | .ORGANIZATION => "organization".data
  | .LOCATION => "location".data
  | .DATE => "date".data
  | .MONEY => "money".data
  | .DOCUMENT_ID => "document_id".data
  | .PHONE => "phone".data
  | .EMAIL => "email".data
  | .ADDRESS => "address".data

/-- All members of the enum, in declaration order. -/
def allEntityTypes : List EntityType :=
  [.PERSON, .ORGANIZATION, .LOCATION, .DATE, .MONEY,
   .DOCUMENT_ID, .PHONE, .EMAIL, .ADDRESS]

/-- `EntityType(s)`: Python by-value enum lookup.  Returns the member whose
`value` equals `s`, or `none` where Python raises `ValueError`. -/
def entityTypeOfValue (s : Str) : Option EntityType :=
  allEntityTypes.find? (fun t => t.value = s)

/-- The keys of the `ExtractedEntity.metadata` dict that the pipeline
reads or writes (`extract.py`).  Unset keys are `none`. -/
structure Metadata where
  canonical_id : Option Nat := none
  source_doc : Option Str := none
  occurrence_count : Option Nat := none
  pages : Option (List Nat) := none
  deriving DecidableEq, Repr

/-- `openfoia.pipeline.extract.ExtractedEntity` (`extract.py` lines 13–23). -/
structure ExtractedEntity where
  entity_type : EntityType
  raw_text : Str
  normalized_text : Str
  confidence : ℚ
  context : Str
  page_number : Option Nat := none
  metadata : Metadata := {}
  deriving DecidableEq, Repr

instance : Inhabited ExtractedEntity :=
  ⟨{ entity_type := .PERSON, raw_text := [], normalized_text := [],
     confidence := 0, context := [] }⟩

/-! ## ChunkSplitter: `EntityExtractor._chunk_text` (lines 215–237) -/

/-- Python `text.split('\n\n')` specialised to the two-newline paragraph
separator: leftmost non-overlapping split, keeping empty pieces, and
returning `[text]` when the separator does not occur (so `[""]` on the
empty string), exactly as `str.split` with a non-empty separator. -/
def splitParas : Str → List Str
  | [] => [[]]
  | [c] => [[c]]
  | c₁ :: c₂ :: rest =>
    if c₁ = '\n' ∧ c₂ = '\n' then
      [] :: splitParas rest
    else
      match splitParas (c₂ :: rest) with
      | [] => [[c₁]]
      | p :: ps => (c₁ :: p) :: ps

/-- `'\n\n'.join(pieces)`. -/
def joinParas : List Str → Str
  | [] => []
  | [p] => p
  | p :: ps => p ++ '\n' :: '\n' :: joinParas ps

/-- The accumulation loop of `_chunk_text` (lines 220–235): greedily pack
paragraphs into chunks, flushing the current chunk when adding the next
paragraph would exceed `maxChars` and the current chunk is non-empty.
`current` is the list of paragraphs of the chunk being built and
`currentLen` the running length counter (`len(para) + 2` per paragraph). -/
def chunkAux (maxChars : Nat) : List Str → List Str → Nat → List Str
  | [], current, _ =>
    if current.isEmpty then [] else [joinParas current]
  | para :: rest, current, currentLen =>
    let paraLen := para.length + 2
    if maxChars < currentLen + paraLen ∧ ¬ current.isEmpty then
      joinParas current :: chunkAux maxChars rest [para] paraLen
    else
      chunkAux maxChars rest (current ++ [para]) (currentLen + paraLen)

/-- `EntityExtractor._chunk_text(text, max_chars)` (lines 215–237). -/
def chunk_text (text : Str) (maxChars : Nat) : List Str :=
  if text.length ≤ maxChars then [text]
  else chunkAux maxChars (splitParas text) [] 0

/-- `EntityExtractor.extract` makes one `_extract_chunk` backend call per
chunk of `self._chunk_text(text, max_chars=8000)` (lines 79–91). -/
def extractCallCount (text : Str) : Nat :=
  (chunk_text text 8000).length

/-! ## Per-chunk conversion: `EntityExtractor._extract_chunk` (lines 182–213) -/

/-- One entity record of the backend's decoded JSON response, as read by
`_extract_chunk`: `e['type']`, `e.get('raw_text', '')`,
`e.get('normalized', e.get('raw_text', ''))`, `e.get('confidence', 0.5)`,
`e.get('context', '')`.  `none` models an absent key. -/
structure RawEntity where
  rtype : Str
  raw_text : Option Str := none
  normalized : Option Str := none
  confidence : Option ℚ := none
  context : Option Str := none

/-- The entity-conversion loop of `_extract_chunk` (lines 194–208): for
each raw record, `EntityType(e['type'].upper())` is attempted; a
`ValueError` (modelled by `entityTypeOfValue` returning `none`) skips the
record (`continue`), otherwise an `ExtractedEntity` is built. -/
def convertEntities (es : List RawEntity) (page : Option Nat) :
    List ExtractedEntity :=
  es.filterMap (fun e =>
    match entityTypeOfValue (upperStr e.rtype) with
    | none => none
    | some t => some
        { entity_type := t
          raw_text := e.raw_text.getD []
          normalized_text := e.normalized.getD (e.raw_text.getD [])
          confidence := e.confidence.getD (1/2)
          context := e.context.getD []
          page_number := page })

/-! ## Cross-chunk merge: `EntityExtractor._merge_entities` (lines 239–260) -/

/-- The grouping key `(entity.entity_type, entity.normalized_text.lower())`
(line 244). -/
def mergeKey (e : ExtractedEntity) : EntityType × Str :=
  (e.entity_type, lowerStr e.normalized_text)

/-- One step of building the `by_normalized` dict (lines 242–247): append
the entity to its key's group, or start a new group at the end (Python
dicts are insertion-ordered). -/
def insertGrouped : List ((EntityType × Str) × List ExtractedEntity) → ExtractedEntity →
    List ((EntityType × Str) × List ExtractedEntity)
  | [], e => [(mergeKey e, [e])]
  | (k, g) :: rest, e =>
    if mergeKey e = k then (k, g ++ [e]) :: rest
    else (k, g) :: insertGrouped rest e

/-- The `by_normalized` dict of `_merge_entities`, as an insertion-ordered
association list. -/
def groupByKey (l : List ExtractedEntity) :
    List ((EntityType × Str) × List ExtractedEntity) :=
  l.foldl insertGrouped []

/-- `max(group, key=lambda e: e.confidence)` (line 252): Python `max`
keeps the earliest element among ties. -/
def bestOf (h : ExtractedEntity) (t : List ExtractedEntity) : ExtractedEntity :=
  t.foldl (fun b e => if b.confidence < e.confidence then e else b) h

/-- `list(set(e.page_number for e in group if e.page_number))` (lines
255–257).  Python truthiness: both `None` and page `0` are skipped.  The
iteration order of a Python `set` is unspecified; the model fixes one
deterministic order (`List.dedup`). -/
def distinctPages (g : List ExtractedEntity) : List Nat :=
  (g.filterMap (fun e => match e.page_number with
    | some p => if p = 0 then none else some p
    | none => none)).dedup

/-- `EntityExtractor._merge_entities` (lines 239–260): group by
`mergeKey`, keep the highest-confidence entity of each group and attach
`occurrence_count` (group size) and the distinct pages to its metadata. -/
def merge_entities (l : List ExtractedEntity) : List ExtractedEntity :=
  (groupByKey l).map (fun kg =>
    match kg.2 with
    | [] => default
    | h :: t =>
      let best := bestOf h t
      { best with metadata :=
          { best.metadata with
            occurrence_count := some (h :: t).length
            pages := some (distinctPages (h :: t)) } })

/-- The metadata tag a second application of `_merge_entities` puts on an
already-merged entity: every group is then a singleton, so
`occurrence_count` becomes `1` and the page set collapses to the
representative's own page. -/
def remergeTag (e : ExtractedEntity) : ExtractedEntity :=
  { e with metadata :=
      { e.metadata with
        occurrence_count := some 1
        pages := some (distinctPages [e]) } }

/-- Well-formedness of the `by_normalized` dict: keys are distinct, every
group is non-empty, and every group member has its group's key. -/
def GroupsWF (gs : List ((EntityType × Str) × List ExtractedEntity)) : Prop :=
  (gs.map Prod.fst).Nodup ∧ ∀ p ∈ gs, p.2 ≠ [] ∧ ∀ x ∈ p.2, mergeKey x = p.1

/-! ## EntityLinker (`extract.py` lines 296–377) -/

/-- `openfoia.models.ConfidenceLevel`. -/
inductive ConfidenceLevel where
  | CONFIRMED | PROBABLE | POSSIBLE | UNRESOLVED
  deriving DecidableEq, Repr

/-- One record of `EntityLinker.canonical_entities` (the dict built at
lines 336–343): fields `id`, `type`, `normalized`, `aliases`,
`confidence`, `first_seen`.  The Python alias *set* is modelled as a
duplicate-free list (`addAlias` inserts only fresh elements). -/
structure Canonical where
  cid : Nat
  ctype : EntityType
  normalized : Str
  aliases : List Str
  confidence : ℚ
  first_seen : Option Str
  deriving DecidableEq, Repr

/-- One record of `EntityLinker.links` (lines 355–361). -/
structure LinkerLink where
  source : Nat
  target : Nat
  relation : Str
  confidence : ConfidenceLevel
  evidence : Str
  deriving DecidableEq, Repr

/-- The mutable state of an `EntityLinker` (lines 299–301).
`canonical_entities` is a Python dict keyed by the canonical id; dicts
preserve insertion order, so it is modelled as an insertion-ordered
association list.  `uuid.uuid4()` is modelled by the fresh counter
`nextId` — only the freshness of the generated id is relevant. -/
structure LinkerState where
  canonical_entities : List (Nat × Canonical)
  links : List LinkerLink
  nextId : Nat
  deriving DecidableEq, Repr

/-- `EntityLinker.__init__`. -/
def emptyLinker : LinkerState := ⟨[], [], 0⟩

/-- `canonical['aliases'].add(entity.raw_text)`: set insertion. -/
def addAlias (aliases : List Str) (raw : Str) : List Str :=
  if raw ∈ aliases then aliases else aliases ++ [raw]

/-- `normalized = entity.normalized_text.lower().strip()` (line 313). -/
def candNorm (e : ExtractedEntity) : Str := stripStr (lowerStr e.normalized_text)

/-- The disjunction of the two merge conditions of the scan (lines
320–331) for a candidate's normalized text `n` against a canonical's
stored `normalized` string: exact equality of the lowercased name, or
substring containment with both lengths above 3. -/
def matchCond (n canNorm : Str) : Prop :=
  lowerStr canNorm = n ∨
    ((n <:+: lowerStr canNorm ∨ lowerStr canNorm <:+: n) ∧
      3 < n.length ∧ 3 < (lowerStr canNorm).length)

/-- The `for can_id, canonical in self.canonical_entities.items()` loop of
`_find_or_create_canonical` (lines 316–331): scan in insertion order;
skip type mismatches; on an exact lowercase match add the alias, raise
the confidence to the max and return; on a containment match with both
lengths above 3 add the alias (confidence unchanged) and return;
otherwise continue.  Returns the merged-into id and the updated
association list, or `none` when no canonical matches. -/
def scanCanonicals (ent : ExtractedEntity) (n : Str) :
    List (Nat × Canonical) → Option (Nat × List (Nat × Canonical))
  | [] => none
  | (k, can) :: rest =>
    if can.ctype ≠ ent.entity_type then
      (scanCanonicals ent n rest).map (fun r => (r.1, (k, can) :: r.2))
    else if lowerStr can.normalized = n then
      some (k, (k, { can with
        aliases := addAlias can.aliases ent.raw_text
        confidence := max can.confidence ent.confidence }) :: rest)
    else if (n <:+: lowerStr can.normalized ∨ lowerStr can.normalized <:+: n) ∧
        3 < n.length ∧ 3 < (lowerStr can.normalized).length then
      some (k, (k, { can with
        aliases := addAlias can.aliases ent.raw_text }) :: rest)
    else
      (scanCanonicals ent n rest).map (fun r => (r.1, (k, can) :: r.2))

/-- `EntityLinker._find_or_create_canonical` (lines 310–344).  On scan
failure a brand-new canonical is appended whose `first_seen` is
`entity.metadata.get('source_doc')` *as the metadata stands at call
time*. -/
def find_or_create_canonical (st : LinkerState) (ent : ExtractedEntity) :
    Nat × LinkerState :=
  match scanCanonicals ent (candNorm ent) st.canonical_entities with
  | some r => (r.1, { st with canonical_entities := r.2 })
  | none =>
    (st.nextId, { st with
      canonical_entities := st.canonical_entities ++
        [(st.nextId,
          { cid := st.nextId
            ctype := ent.entity_type
            normalized := ent.normalized_text
            aliases := [ent.raw_text]
            confidence := ent.confidence
            first_seen := ent.metadata.source_doc })]
      nextId := st.nextId + 1 })

/-- `EntityLinker.add_entities(entities, source_doc_id)` (lines 303–308):
for each entity, resolve it, *then* record `canonical_id` and
`source_doc` in its metadata.  Returns the updated linker state and the
entities with their mutated metadata. -/
def add_entities (st : LinkerState) (entities : List ExtractedEntity)
    (source_doc_id : Str) : LinkerState × List ExtractedEntity :=
  match entities with
  | [] => (st, [])
  | e :: rest =>
    let r := find_or_create_canonical st e
    let e' := { e with metadata :=
      { e.metadata with
        canonical_id := some r.1
        source_doc := some source_doc_id } }
    let r' := add_entities r.2 rest source_doc_id
    (r'.1, e' :: r'.2)

/-- `EntityLinker.link_entities` (lines 346–361): append one edge,
unconditionally. -/
def link_entities (st : LinkerState) (source_id target_id : Nat)
    (relation : Str) (confidence : ConfidenceLevel) (evidence : Str) :
    LinkerState :=
  { st with links := st.links ++
      [{ source := source_id, target := target_id, relation := relation,
         confidence := confidence, evidence := evidence }] }

/-- One entry of the `entities` list of `export_graph` (lines 366–375). -/
structure GraphEntity where
  id : Nat
  etype : Str
  name : Str
  aliases : List Str
  confidence : ℚ
  deriving DecidableEq, Repr

/-- The snapshot returned by `export_graph`. -/
structure GraphExport where
  entities : List GraphEntity
  links : List LinkerLink
  deriving DecidableEq, Repr

/-- `EntityLinker.export_graph` (lines 363–377): a read-only snapshot. -/
def export_graph (st : LinkerState) : GraphExport :=
  { entities := st.canonical_entities.map (fun p =>
      { id := p.2.cid, etype := p.2.ctype.value, name := p.2.normalized,
        aliases := p.2.aliases, confidence := p.2.confidence })
    links := st.links }

/-- Look a canonical id up in the canonical-entity collection. -/
def lookupCan (st : LinkerState) (k : Nat) : Option Canonical :=
  (st.canonical_entities.find? (fun p => p.1 == k)).map Prod.snd

/-- The linker states reachable from a fresh `EntityLinker()` by any
sequence of `add_entities` and `link_entities` calls (`export_graph`
reads the state without modifying it). -/
inductive Reachable : LinkerState → Prop where
  | empty : Reachable emptyLinker
  | add (st : LinkerState) (ents : List ExtractedEntity) (doc : Str) :
      Reachable st → Reachable (add_entities st ents doc).1
  | link (st : LinkerState) (s t : Nat) (rel : Str) (conf : ConfidenceLevel)
      (ev : Str) : Reachable st → Reachable (link_entities st s t rel conf ev)

/-- The update `_find_or_create_canonical` applies to the canonical it
merges the candidate into: on the exact path the alias is added and the
confidence raised to the max; on the fuzzy path only the alias is
added. -/
def updateCan (can : Canonical) (ent : ExtractedEntity) (n : Str) : Canonical :=
  if lowerStr can.normalized = n then
    { can with aliases := addAlias can.aliases ent.raw_text
               confidence := max can.confidence ent.confidence }
  else
    { can with aliases := addAlias can.aliases ent.raw_text }

/-- The fields of a stored canonical that the scan conditions depend on:
its type and its stored `normalized` string. -/
def typeNorm (p : Nat × Canonical) : EntityType × Str := (p.2.ctype, p.2.normalized)

/-- "The later canonical's creation-time candidate text does not match the
earlier canonical": the relation the linker's history imposes on every
earlier/later pair of same-type canonicals. -/
def noMatchTN (a b : EntityType × Str) : Prop :=
  b.1 = a.1 → ¬ matchCond (stripStr (lowerStr b.2)) a.2

/-- Invariant of every reachable linker state. -/
structure Inv (st : LinkerState) : Prop where
  keyslt : ∀ k ∈ st.canonical_entities.map Prod.fst, k < st.nextId
  keymono : (st.canonical_entities.map Prod.fst).Pairwise (· < ·)
  ideq : ∀ p ∈ st.canonical_entities, p.2.cid = p.1
  aliasne : ∀ p ∈ st.canonical_entities, p.2.aliases ≠ []
  noEarlier : (st.canonical_entities.map typeNorm).Pairwise noMatchTN

/-! ## RedactionDetector (`ocr.py` lines 244–286) -/

/-- `re.findall(pattern, text)` for a non-empty *literal* pattern
`p :: ps`: the number of non-overlapping occurrences, scanning left to
right.  After a match, the remaining `ps.length` matched characters are
consumed via the `skip` counter (so the scan resumes right after the
match), keeping the recursion structural on the text. -/
def findallAux (p : Char) (ps : Str) : Str → Nat → Nat
  | [], _ => 0
  | c :: rest, 0 =>
    if (p :: ps).isPrefixOf (c :: rest) then
      1 + findallAux p ps rest ps.length
    else
      findallAux p ps rest 0
  | _ :: rest, skip + 1 => findallAux p ps rest skip

/-- `len(re.findall(pattern, text, re.IGNORECASE))` for a literal
pattern: case-insensitivity is ASCII case folding of both pattern and
text.  (All patterns in the exemption table are non-empty.) -/
def ciCount (pat text : Str) : Nat :=
  match lowerStr pat with
  | [] => 0
  | p :: ps => findallAux p ps (lowerStr text) 0

/-- `RedactionDetector.EXEMPTION_PATTERNS` (`ocr.py` lines 248–260).
Each regex source `r'\(b\)\(N\)'` denotes the literal string `"(b)(N)"`
(parentheses escaped), and the emitted `code` is
`pattern.replace('\\', '')`, which is that same literal string — so one
field models both the pattern and the code. -/
def EXEMPTION_PATTERNS : List (Str × Str) :=
  [("(b)(1)".data, "National security".data),
   ("(b)(2)".data, "Internal personnel rules".data),
   ("(b)(3)".data, "Statutory exemption".data),
   ("(b)(4)".data, "Trade secrets".data),
   ("(b)(5)".data, "Deliberative process".data),
   ("(b)(6)".data, "Personal privacy".data),
   ("(b)(7)(A)".data, "Law enforcement - interference".data),
   ("(b)(7)(C)".data, "Law enforcement - privacy".data),
   ("(b)(7)(D)".data, "Law enforcement - confidential source".data),
   ("(b)(7)(E)".data, "Law enforcement - techniques".data),
   ("(b)(7)(F)".data, "Law enforcement - safety".data)]

/-- One `{code, description, count}` record of `exemptions_cited`. -/
structure ExemptionRecord where
  code : Str
  description : Str
  count : Nat
  deriving DecidableEq, Repr

/-- The text-scanning part of the result of `RedactionDetector.analyze`
(lines 262–286).  `visual_redaction_count` is `None` without a PDF and is
not modelled. -/
structure RedactionAnalysis where
  exemptions_cited : List ExemptionRecord
  total_exemption_citations : Nat
  deriving DecidableEq, Repr

/-- `RedactionDetector.analyze(text)` (lines 262–286): for each pattern
of the fixed table, count its case-insensitive matches; emit a record if
the count is positive; total is the sum over the emitted records. -/
def analyze (text : Str) : RedactionAnalysis :=
  let found := EXEMPTION_PATTERNS.filterMap (fun pd =>
    if ciCount pd.1 text = 0 then none
    else some { code := pd.1, description := pd.2, count := ciCount pd.1 text })
  { exemptions_cited := found
    total_exemption_citations := (found.map (fun r => r.count)).sum }

theorem toNat_char_ofNat_of_valid (n : Nat) (h : n.isValidChar) :
    (Char.ofNat n).toNat = n := by
  rw [Char.ofNat, dif_pos h]
  rfl

/-- `Char.toUpper` never yields a lowercase ASCII letter. -/
theorem toUpper_ne_of_lower {d : Char} (hd : 97 ≤ d.toNat ∧ d.toNat ≤ 122)
    (c : Char) : Char.toUpper c ≠ d := by
  intro heq
  simp only [Char.toUpper] at heq
  by_cases h : 97 ≤ c.toNat ∧ c.toNat ≤ 122
  · rw [if_pos (by exact_mod_cast h)] at heq
    have htn := congrArg Char.toNat heq
    rw [toNat_char_ofNat_of_valid _ (Or.inl (by omega))] at htn
    omega
  · rw [if_neg (by exact_mod_cast h)] at heq
    subst heq
    exact h hd

/-- No string uppercased by `str.upper()` is a value of the `EntityType`
enum, because every enum value in `models.py` is lowercase. -/
theorem entityTypeOfValue_upperStr (s : Str) :
    entityTypeOfValue (upperStr s) = none := by
  cases s with
  | nil => decide
  | cons c cs =>
    have hne : ∀ t : EntityType, ¬ (t.value = upperStr (c :: cs)) := by
      intro t heq
      cases t <;>
        · simp only [EntityType.value, upperStr, List.map_cons] at heq
          have := (List.cons.injEq _ _ _ _ ▸ heq).1
          exact toUpper_ne_of_lower (by decide) c this.symm
    simp only [entityTypeOfValue, allEntityTypes]
    simp [List.find?, hne _]

/-- C1: every entity of every backend response is dropped by
`_extract_chunk`'s conversion loop, whatever its declared type — in
particular entities whose declared type names a member of the recognized
vocabulary, such as `"PERSON"`, are dropped too.  The cause:
`EntityType(e['type'].upper())` looks the *uppercased* type name up among
the enum's *values*, which are all lowercase (`"person"`, …), so the
lookup always raises `ValueError` and the `except ValueError: continue`
skips every record. -/
theorem convertEntities_drops_all (es : List RawEntity) (page : Option Nat) :
    convertEntities es page = [] := by
  unfold convertEntities
  rw [List.filterMap_eq_nil_iff]
  intro e _
  rw [entityTypeOfValue_upperStr]

/-- C1, evaluated at the failing input: a well-formed backend response
declaring one `"PERSON"` entity (a member of the recognized vocabulary)
yields no `ExtractedEntity` at all. -/
theorem convertEntities_drops_person_cx :
    convertEntities
      [{ rtype := "PERSON".data, raw_text := some "John Smith".data,
         normalized := some "John Smith".data, confidence := some 1,
         context := some [] }] (some 1) = [] := by
  decide

/-! ### Merge lemmas -/

theorem insertGrouped_keys (gs : List ((EntityType × Str) × List ExtractedEntity))
    (e : ExtractedEntity) :
    (insertGrouped gs e).map Prod.fst =
      if mergeKey e ∈ gs.map Prod.fst then gs.map Prod.fst
      else gs.map Prod.fst ++ [mergeKey e] := by
  induction gs with
  | nil => simp [insertGrouped]
  | cons p rest ih =>
    obtain ⟨k, g⟩ := p
    by_cases hk : mergeKey e = k
    · simp [insertGrouped, hk]
    · simp only [insertGrouped, if_neg hk, List.map_cons, ih]
      by_cases hm : mergeKey e ∈ rest.map Prod.fst <;>
        simp [hm, Ne.symm hk, hk]

theorem insertGrouped_wf (gs : List ((EntityType × Str) × List ExtractedEntity))
    (e : ExtractedEntity) (h : GroupsWF gs) : GroupsWF (insertGrouped gs e) := by
  obtain ⟨hnd, hmem⟩ := h
  constructor
  · rw [insertGrouped_keys]
    split
    · exact hnd
    · next hne => simp [List.nodup_append, hnd, hne]
  · induction gs with
    | nil =>
      intro p hp
      simp only [insertGrouped, List.mem_singleton] at hp
      subst hp
      simp
    | cons q rest ih =>
      obtain ⟨k, g⟩ := q
      intro p hp
      by_cases hk : mergeKey e = k
      · simp only [insertGrouped, if_pos hk] at hp
        rcases List.mem_cons.1 hp with hp | hp
        · subst hp
          refine ⟨by simp, ?_⟩
          intro x hx
          rcases List.mem_append.1 hx with hx | hx
          · exact ((hmem (k, g) (by simp)).2 x hx)
          · simp only [List.mem_singleton] at hx
            subst hx; exact hk
        · exact hmem p (List.mem_cons_of_mem _ hp)
      · simp only [insertGrouped, if_neg hk] at hp
        rcases List.mem_cons.1 hp with hp | hp
        · subst hp; exact hmem (k, g) (by simp)
        · exact ih (by simpa [List.nodup_cons] using hnd.of_cons)
            (fun q hq => hmem q (List.mem_cons_of_mem _ hq)) p hp

theorem foldl_insertGrouped_wf (l : List ExtractedEntity) :
    ∀ acc, GroupsWF acc → GroupsWF (l.foldl insertGrouped acc) := by
  induction l with
  | nil => intro acc h; exact h
  | cons e rest ih =>
    intro acc h
    exact ih (insertGrouped acc e) (insertGrouped_wf acc e h)

theorem groupByKey_wf (l : List ExtractedEntity) : GroupsWF (groupByKey l) :=
  foldl_insertGrouped_wf l [] ⟨List.nodup_nil, by simp⟩

theorem bestOf_mem : ∀ (t : List ExtractedEntity) (h : ExtractedEntity),
    bestOf h t ∈ h :: t
  | [], h => List.mem_singleton_self h
  | e :: t, h => by
    have ih := bestOf_mem t (if h.confidence < e.confidence then e else h)
    rcases List.mem_cons.1 ih with hm | hm
    · rw [show bestOf h (e :: t)
          = bestOf (if h.confidence < e.confidence then e else h) t from rfl, hm]
      split <;> simp
    · exact List.mem_cons_of_mem _ (List.mem_cons_of_mem _ hm)

theorem merge_entities_keys (l : List ExtractedEntity) :
    (merge_entities l).map mergeKey = (groupByKey l).map Prod.fst := by
  unfold merge_entities
  rw [List.map_map]
  refine List.map_congr_left ?_
  intro p hp
  obtain ⟨hne, hkey⟩ := (groupByKey_wf l).2 p hp
  obtain ⟨k, g⟩ := p
  cases g with
  | nil => exact absurd rfl hne
  | cons h t =>
    simp only [Function.comp_apply]
    exact hkey (bestOf h t) (bestOf_mem t h)

theorem insertGrouped_of_not_mem :
    ∀ (gs : List ((EntityType × Str) × List ExtractedEntity)) (e : ExtractedEntity),
    mergeKey e ∉ gs.map Prod.fst → insertGrouped gs e = gs ++ [(mergeKey e, [e])]
  | [], e, _ => rfl
  | (k, g) :: rest, e, h => by
    simp only [List.map_cons, List.mem_cons] at h
    push_neg at h
    simp only [insertGrouped, if_neg h.1]
    rw [insertGrouped_of_not_mem rest e h.2, List.cons_append]

theorem foldl_insertGrouped_of_nodup :
    ∀ (l : List ExtractedEntity) (acc : List ((EntityType × Str) × List ExtractedEntity)),
    (l.map mergeKey).Nodup → (∀ k ∈ l.map mergeKey, k ∉ acc.map Prod.fst) →
    l.foldl insertGrouped acc = acc ++ l.map (fun e => (mergeKey e, [e]))
  | [], acc, _, _ => by simp
  | e :: rest, acc, hnd, hdisj => by
    have h1 : mergeKey e ∉ acc.map Prod.fst := hdisj _ (by simp)
    have step : insertGrouped acc e = acc ++ [(mergeKey e, [e])] :=
      insertGrouped_of_not_mem acc e h1
    have hnd' : (rest.map mergeKey).Nodup := by
      simpa [List.nodup_cons] using hnd.of_cons
    have hdisj' : ∀ k ∈ rest.map mergeKey,
        k ∉ (acc ++ [(mergeKey e, [e])]).map Prod.fst := by
      intro k hk
      simp only [List.map_append, List.mem_append, List.map_cons, List.map_nil,
        List.mem_singleton]
      push_neg
      refine ⟨hdisj k (by simp [hk]), ?_⟩
      intro hke
      simp only [List.map_cons, List.nodup_cons] at hnd
      exact hnd.1 (hke ▸ hk)
    calc (e :: rest).foldl insertGrouped acc
        = rest.foldl insertGrouped (insertGrouped acc e) := rfl
      _ = (acc ++ [(mergeKey e, [e])]) ++ rest.map (fun e => (mergeKey e, [e])) := by
          rw [step, foldl_insertGrouped_of_nodup rest _ hnd' hdisj']
      _ = acc ++ (e :: rest).map (fun e => (mergeKey e, [e])) := by
          simp

theorem groupByKey_of_nodup (l : List ExtractedEntity)
    (h : (l.map mergeKey).Nodup) :
    groupByKey l = l.map (fun e => (mergeKey e, [e])) := by
  simpa using foldl_insertGrouped_of_nodup l [] h (by simp)

/-- C5 counterexample: running `_merge_entities` twice is not the same as
running it once.  Concrete input: two mentions of the same `(type,
normalized)` key with confidences 1 and 0 observed on pages 1 and 2.
The first merge attaches `occurrence_count = 2`, `pages = [1, 2]`; the
second merge regroups the single representative into a singleton group
and overwrites its metadata with `occurrence_count = 1`, `pages = [1]`. -/
theorem merge_entities_not_idempotent_cx :
    merge_entities (merge_entities
      [{ entity_type := .PERSON, raw_text := "Ann".data,
         normalized_text := "Ann".data, confidence := 1, context := [],
         page_number := some 1 },
       { entity_type := .PERSON, raw_text := "ann".data,
         normalized_text := "Ann".data, confidence := 0, context := [],
         page_number := some 2 }]) ≠
    merge_entities
      [{ entity_type := .PERSON, raw_text := "Ann".data,
         normalized_text := "Ann".data, confidence := 1, context := [],
         page_number := some 1 },
       { entity_type := .PERSON, raw_text := "ann".data,
         normalized_text := "Ann".data, confidence := 0, context := [],
         page_number := some 2 }] := by
  decide

/-- C5 amended: the cross-chunk merge is idempotent on the merged
entities themselves (same grouping keys, same representatives with the
same core fields, in the same order) but not on their attached metadata:
a second application of `_merge_entities` returns the same entity list
except that each representative's `occurrence_count` is overwritten with
`1` (its singleton group size) and its page set collapses to the
representative's own page. -/
theorem merge_entities_reapplied (l : List ExtractedEntity) :
    merge_entities (merge_entities l) = (merge_entities l).map remergeTag := by
  have hnd : ((merge_entities l).map mergeKey).Nodup := by
    rw [merge_entities_keys]
    exact (groupByKey_wf l).1
  conv_lhs => rw [merge_entities, groupByKey_of_nodup _ hnd]
  rw [List.map_map]
  rfl

/-! ### Chunker lemmas -/

theorem splitParas_ne_nil : ∀ l : Str, splitParas l ≠ []
  | [] => by simp [splitParas]
  | [c] => by simp [splitParas]
  | c₁ :: c₂ :: rest => by
    rw [splitParas]
    split
    · simp
    · cases hs : splitParas (c₂ :: rest) <;> simp

theorem joinParas_splitParas : ∀ l : Str, joinParas (splitParas l) = l
  | [] => rfl
  | [c] => rfl
  | c₁ :: c₂ :: rest => by
    rw [splitParas]
    split
    case isTrue h =>
      obtain ⟨h1, h2⟩ := h
      subst h1; subst h2
      have ih := joinParas_splitParas rest
      cases hs : splitParas rest with
      | nil => exact absurd hs (splitParas_ne_nil rest)
      | cons p ps =>
        rw [hs] at ih
        simp [joinParas, ih]
    case isFalse h =>
      have ih := joinParas_splitParas (c₂ :: rest)
      cases hs : splitParas (c₂ :: rest) with
      | nil => exact absurd hs (splitParas_ne_nil _)
      | cons p ps =>
        rw [hs] at ih
        show joinParas ((c₁ :: p) :: ps) = _
        cases ps with
        | nil => simpa [joinParas] using congrArg (c₁ :: ·) ih
        | cons q qs =>
          simp only [joinParas] at ih ⊢
          simpa using congrArg (c₁ :: ·) ih

theorem joinParas_append : ∀ (xs ys : List Str), xs ≠ [] → ys ≠ [] →
    joinParas (xs ++ ys) = joinParas xs ++ '\n' :: '\n' :: joinParas ys
  | [], _, hx, _ => absurd rfl hx
  | [p], ys, _, hy => by
    cases ys with
    | nil => exact absurd rfl hy
    | cons q qs => simp [joinParas]
  | p :: p' :: ps, ys, _, hy => by
    have ih := joinParas_append (p' :: ps) ys (by simp) hy
    simp only [List.cons_append, List.append_eq, joinParas] at ih ⊢
    rw [ih, List.append_assoc]
    simp

theorem chunkAux_ne_nil (max : Nat) : ∀ (paras current : List Str) (len : Nat),
    ¬ current.isEmpty → chunkAux max paras current len ≠ []
  | [], current, len => by
    intro h
    simp [chunkAux, h]
  | para :: rest, current, len => by
    intro h
    rw [chunkAux]
    split
    · simp
    · exact chunkAux_ne_nil max rest (current ++ [para]) _ (by simp)

theorem joinParas_chunkAux (max : Nat) : ∀ (paras current : List Str) (len : Nat),
    ¬ current.isEmpty →
    joinParas (chunkAux max paras current len) = joinParas (current ++ paras)
  | [], current, len, h => by simp [chunkAux, h, joinParas]
  | para :: rest, current, len, h => by
    have hcur : current ≠ [] := by simpa [List.isEmpty_iff] using h
    rw [chunkAux]
    split
    case isTrue hc =>
      have hne := chunkAux_ne_nil max rest [para] (para.length + 2) (by simp)
      have ih := joinParas_chunkAux max rest [para] (para.length + 2) (by simp)
      cases hl : chunkAux max rest [para] (para.length + 2) with
      | nil => exact absurd hl hne
      | cons c cs =>
        rw [hl] at ih
        have hstep : joinParas (joinParas current :: c :: cs)
            = joinParas current ++ '\n' :: '\n' :: joinParas (c :: cs) := by
          simp [joinParas]
        rw [hstep, ih, joinParas_append current (para :: rest) hcur (by simp)]
        simp
    case isFalse hc =>
      have ih := joinParas_chunkAux max rest (current ++ [para]) (len + (para.length + 2))
        (by simp)
      rw [ih, List.append_assoc]
      simp

/-- C6: joining the chunks produced by `_chunk_text` with the `"\n\n"`
paragraph separator reinserted between chunks reproduces the original
text exactly, for every input text and every maximum chunk size — both
when the text fits in one chunk and when splitting is required. -/
theorem chunk_text_roundtrip (text : Str) (maxChars : Nat) :
    joinParas (chunk_text text maxChars) = text := by
  unfold chunk_text
  split
  · simp [joinParas]
  · cases hs : splitParas text with
    | nil => exact absurd hs (splitParas_ne_nil text)
    | cons p ps =>
      rw [chunkAux]
      rw [if_neg (by simp)]
      have ih := joinParas_chunkAux maxChars ps ([] ++ [p]) (0 + (p.length + 2))
        (by simp)
      rw [ih]
      have hj := joinParas_splitParas text
      rw [hs] at hj
      simpa using hj

/-- C4 counterexample: on the empty text `_chunk_text` returns a
one-element chunk list containing the empty string — not the empty list —
so `extract` performs one backend call, not zero. -/
theorem chunk_text_empty_counterexample :
    chunk_text "".data 8000 ≠ ([] : List Str) ∧ extractCallCount "".data ≠ 0 := by
  constructor <;> decide

/-- C4 amended: for every maximum chunk size, the empty input text
produces the one-element chunk list `[""]` (the `len(text) <= max_chars`
fast path returns `[text]`), and consequently `extract` on empty text
performs exactly one per-chunk extraction call. -/
theorem chunk_text_empty (maxChars : Nat) :
    chunk_text [] maxChars = [[]] ∧ extractCallCount [] = 1 := by
  constructor
  · simp [chunk_text]
  · decide

/-! ### Linker lemmas -/

theorem stripStr_eq_rdropWhile (s : Str) :
    stripStr s = (s.dropWhile Char.isWhitespace).rdropWhile Char.isWhitespace := rfl

theorem stripStr_idem (s : Str) : stripStr (stripStr s) = stripStr s := by
  rw [stripStr_eq_rdropWhile, stripStr_eq_rdropWhile]
  have h1 : List.dropWhile Char.isWhitespace
      ((s.dropWhile Char.isWhitespace).rdropWhile Char.isWhitespace) =
      (s.dropWhile Char.isWhitespace).rdropWhile Char.isWhitespace := by
    cases hX : (s.dropWhile Char.isWhitespace).rdropWhile Char.isWhitespace with
    | nil => simp
    | cons a t =>
      have hpre : (s.dropWhile Char.isWhitespace).rdropWhile Char.isWhitespace
          <+: s.dropWhile Char.isWhitespace := List.rdropWhile_prefix _ _
      rw [hX] at hpre
      obtain ⟨r, hr⟩ := hpre
      have hhead := List.head?_dropWhile_not Char.isWhitespace s
      rw [← hr] at hhead
      simp only [List.cons_append, List.head?_cons] at hhead
      exact List.dropWhile_cons_of_neg (by simp [hhead])
  rw [h1, List.rdropWhile_idempotent]

theorem addAlias_ne_nil (l : List Str) (r : Str) : addAlias l r ≠ [] := by
  unfold addAlias
  split
  · intro hnil
    subst hnil
    simp_all
  · simp

theorem updateCan_cid (can ent n) : (updateCan can ent n).cid = can.cid := by
  unfold updateCan; split <;> rfl

theorem updateCan_ctype (can ent n) : (updateCan can ent n).ctype = can.ctype := by
  unfold updateCan; split <;> rfl

theorem updateCan_normalized (can ent n) :
    (updateCan can ent n).normalized = can.normalized := by
  unfold updateCan; split <;> rfl

theorem updateCan_first_seen (can ent n) :
    (updateCan can ent n).first_seen = can.first_seen := by
  unfold updateCan; split <;> rfl

theorem updateCan_aliases_ne_nil (can ent n) : (updateCan can ent n).aliases ≠ [] := by
  unfold updateCan; split <;> exact addAlias_ne_nil _ _

/-- Characterization of a successful scan: the list splits at the first
matching same-type canonical; everything before it matches neither
exactly nor fuzzily; only that entry is replaced, by `updateCan`. -/
theorem scanCanonicals_some (ent : ExtractedEntity) (n : Str) :
    ∀ (l : List (Nat × Canonical)) (cid : Nat) (l' : List (Nat × Canonical)),
    scanCanonicals ent n l = some (cid, l') →
    ∃ pre can post,
      l = pre ++ (cid, can) :: post ∧
      l' = pre ++ (cid, updateCan can ent n) :: post ∧
      can.ctype = ent.entity_type ∧ matchCond n can.normalized ∧
      ∀ p ∈ pre, p.2.ctype = ent.entity_type → ¬ matchCond n p.2.normalized
  | [], cid, l', h => by simp [scanCanonicals] at h
  | (k, can) :: rest, cid, l', h => by
    rw [scanCanonicals] at h
    split at h
    case isTrue hty =>
      rw [Option.map_eq_some'] at h
      obtain ⟨⟨cid₀, rest₀⟩, hscan, heq⟩ := h
      obtain ⟨rfl, rfl⟩ := Prod.mk.injEq .. ▸ heq
      obtain ⟨pre, can', post, h1, h2, h3, h4, h5⟩ :=
        scanCanonicals_some ent n rest cid₀ rest₀ hscan
      exact ⟨(k, can) :: pre, can', post, by simp [h1], by simp [h2], h3, h4,
        by
          intro p hp
          rcases List.mem_cons.1 hp with hp | hp
          · subst hp; intro hc; exact absurd hc hty
          · exact h5 p hp⟩
    case isFalse hty =>
      split at h
      case isTrue hex =>
        obtain ⟨rfl, rfl⟩ := Prod.mk.injEq .. ▸ (Option.some.injEq .. ▸ h)
        refine ⟨[], can, rest, by simp, ?_, not_not.1 hty, Or.inl hex, by simp⟩
        simp [updateCan, if_pos hex]
      case isFalse hex =>
        split at h
        case isTrue hfz =>
          obtain ⟨rfl, rfl⟩ := Prod.mk.injEq .. ▸ (Option.some.injEq .. ▸ h)
          refine ⟨[], can, rest, by simp, ?_, not_not.1 hty, Or.inr hfz, by simp⟩
          simp [updateCan, if_neg hex]
        case isFalse hfz =>
          rw [Option.map_eq_some'] at h
          obtain ⟨⟨cid₀, rest₀⟩, hscan, heq⟩ := h
          obtain ⟨rfl, rfl⟩ := Prod.mk.injEq .. ▸ heq
          obtain ⟨pre, can', post, h1, h2, h3, h4, h5⟩ :=
            scanCanonicals_some ent n rest cid₀ rest₀ hscan
          exact ⟨(k, can) :: pre, can', post, by simp [h1], by simp [h2], h3, h4,
            by
              intro p hp
              rcases List.mem_cons.1 hp with hp | hp
              · subst hp
                intro _ hc
                rcases hc with hc | hc
                · exact hex hc
                · exact hfz hc
              · exact h5 p hp⟩

/-- A failed scan means no same-type canonical matches the candidate. -/
theorem scanCanonicals_none (ent : ExtractedEntity) (n : Str) :
    ∀ l : List (Nat × Canonical), scanCanonicals ent n l = none →
    ∀ p ∈ l, p.2.ctype = ent.entity_type → ¬ matchCond n p.2.normalized
  | [], _, p, hp => by simp at hp
  | (k, can) :: rest, h, p, hp => by
    rw [scanCanonicals] at h
    split at h
    case isTrue hty =>
      rw [Option.map_eq_none'] at h
      rcases List.mem_cons.1 hp with hp | hp
      · subst hp; intro hc; exact absurd hc hty
      · exact scanCanonicals_none ent n rest h p hp
    case isFalse hty =>
      split at h
      case isTrue hex => exact absurd h (by simp)
      case isFalse hex =>
        split at h
        case isTrue hfz => exact absurd h (by simp)
        case isFalse hfz =>
          rw [Option.map_eq_none'] at h
          rcases List.mem_cons.1 hp with hp | hp
          · subst hp
            intro _ hc
            rcases hc with hc | hc
            · exact hex hc
            · exact hfz hc
          · exact scanCanonicals_none ent n rest h p hp

theorem Inv_empty : Inv emptyLinker := by
  constructor <;> simp [emptyLinker]

theorem Inv_foc (st : LinkerState) (ent : ExtractedEntity) (h : Inv st) :
    Inv (find_or_create_canonical st ent).2 := by
  unfold find_or_create_canonical
  cases hscan : scanCanonicals ent (candNorm ent) st.canonical_entities with
  | none =>
    have hnm := scanCanonicals_none ent (candNorm ent) _ hscan
    constructor
    · intro k hk
      simp only [List.map_append, List.mem_append, List.map_cons, List.map_nil,
        List.mem_singleton] at hk
      rcases hk with hk | hk
      · exact Nat.lt_succ_of_lt (h.keyslt k hk)
      · subst hk; exact Nat.lt_succ_self _
    · simp only [List.map_append, List.map_cons, List.map_nil]
      rw [List.pairwise_append]
      exact ⟨h.keymono, List.pairwise_singleton _ _,
        fun a ha b hb => by
          simp only [List.mem_singleton] at hb
          subst hb
          exact h.keyslt a ha⟩
    · intro p hp
      rcases List.mem_append.1 hp with hp | hp
      · exact h.ideq p hp
      · simp only [List.mem_singleton] at hp
        subst hp; rfl
    · intro p hp
      rcases List.mem_append.1 hp with hp | hp
      · exact h.aliasne p hp
      · simp only [List.mem_singleton] at hp
        subst hp; simp
    · simp only [List.map_append, List.map_cons, List.map_nil]
      rw [List.pairwise_append]
      refine ⟨h.noEarlier, List.pairwise_singleton _ _, ?_⟩
      intro a ha b hb
      simp only [List.mem_singleton] at hb
      subst hb
      obtain ⟨p, hpmem, rfl⟩ := List.mem_map.1 ha
      intro hty
      have hty' : ent.entity_type = p.2.ctype := by simpa [typeNorm] using hty
      exact hnm p hpmem hty'.symm
  | some r =>
    obtain ⟨cid, l'⟩ := r
    obtain ⟨pre, can, post, h1, h2, h3, h4, h5⟩ :=
      scanCanonicals_some ent (candNorm ent) _ _ _ hscan
    have hkeys : l'.map Prod.fst = st.canonical_entities.map Prod.fst := by
      rw [h1, h2]; simp
    have htn : l'.map typeNorm = st.canonical_entities.map typeNorm := by
      rw [h1, h2]
      simp [typeNorm, updateCan_ctype, updateCan_normalized]
    constructor
    · intro k hk
      exact h.keyslt k (hkeys ▸ hk)
    · exact hkeys ▸ h.keymono
    · intro p hp
      rw [h2] at hp
      rcases List.mem_append.1 hp with hp | hp
      · exact h.ideq p (h1 ▸ List.mem_append_left _ hp)
      · rcases List.mem_cons.1 hp with hp | hp
        · subst hp
          have := h.ideq (cid, can) (h1 ▸ List.mem_append_right _ (by simp))
          simpa [updateCan_cid] using this
        · exact h.ideq p (h1 ▸ List.mem_append_right _ (List.mem_cons_of_mem _ hp))
    · intro p hp
      rw [h2] at hp
      rcases List.mem_append.1 hp with hp | hp
      · exact h.aliasne p (h1 ▸ List.mem_append_left _ hp)
      · rcases List.mem_cons.1 hp with hp | hp
        · subst hp
          exact updateCan_aliases_ne_nil can ent (candNorm ent)
        · exact h.aliasne p (h1 ▸ List.mem_append_right _ (List.mem_cons_of_mem _ hp))
    · exact htn ▸ h.noEarlier

theorem Inv_add (ents : List ExtractedEntity) :
    ∀ (st : LinkerState) (doc : Str), Inv st → Inv (add_entities st ents doc).1 := by
  induction ents with
  | nil => intro st doc h; exact h
  | cons e rest ih =>
    intro st doc h
    exact ih (find_or_create_canonical st e).2 doc (Inv_foc st e h)

theorem Inv_link (st : LinkerState) (s t : Nat) (rel : Str)
    (conf : ConfidenceLevel) (ev : Str) (h : Inv st) :
    Inv (link_entities st s t rel conf ev) :=
  ⟨h.keyslt, h.keymono, h.ideq, h.aliasne, h.noEarlier⟩

theorem Inv_reachable {st : LinkerState} (h : Reachable st) : Inv st := by
  induction h with
  | empty => exact Inv_empty
  | add st ents doc _ ih => exact Inv_add ents st doc ih
  | link st s t rel conf ev _ ih => exact Inv_link st s t rel conf ev ih

/-- Under the history invariant, a candidate that exact-matches *some*
canonical in the collection makes the scan stop with an exact match: no
fuzzy merge can be taken, because any canonical scanned earlier than the
exact-matching one was already checked (and rejected) against the very
same normalized text when the exact-matching canonical was created. -/
theorem scan_exact_hit (ent : ExtractedEntity) (l : List (Nat × Canonical))
    (hpw : (l.map typeNorm).Pairwise noMatchTN)
    (E : Nat × Canonical) (hE : E ∈ l) (hEty : E.2.ctype = ent.entity_type)
    (hEex : lowerStr E.2.normalized = candNorm ent) :
    ∃ r, scanCanonicals ent (candNorm ent) l = some r ∧
      ∃ can, (r.1, can) ∈ l ∧ can.ctype = ent.entity_type ∧
        lowerStr can.normalized = candNorm ent := by
  cases hscan : scanCanonicals ent (candNorm ent) l with
  | none =>
    exact absurd (Or.inl hEex) (scanCanonicals_none ent _ l hscan E hE hEty)
  | some r =>
    obtain ⟨cid, l'⟩ := r
    obtain ⟨pre, can, post, h1, h2, h3, h4, h5⟩ :=
      scanCanonicals_some ent _ l cid l' hscan
    refine ⟨(cid, l'), rfl, can, by rw [h1]; simp, h3, ?_⟩
    by_contra hnex
    have hfz := h4.resolve_left hnex
    rw [h1] at hE
    rcases List.mem_append.1 hE with hEpre | hEmid
    · exact h5 E hEpre hEty (Or.inl hEex)
    rcases List.mem_cons.1 hEmid with hEeq | hEpost
    · rw [hEeq] at hEex
      exact hnex hEex
    · rw [h1] at hpw
      simp only [List.map_append, List.map_cons] at hpw
      rw [List.pairwise_append] at hpw
      have hmid := (List.pairwise_cons.1 hpw.2.1).1
      have hrel := hmid (typeNorm E) (List.mem_map_of_mem _ hEpost)
      have hty2 : (typeNorm E).1 = (typeNorm (cid, can)).1 := by
        simp only [typeNorm]
        rw [hEty, h3]
      have hnm := hrel hty2
      simp only [typeNorm] at hnm
      rw [hEex] at hnm
      have hstrip : stripStr (candNorm ent) = candNorm ent :=
        stripStr_idem (lowerStr ent.normalized_text)
      rw [hstrip] at hnm
      exact hnm (Or.inr hfz)

/-- C2: whenever some existing canonical of the candidate's type has a
normalized name whose lowercase form equals the candidate's
lowercased-and-trimmed normalized text, `_find_or_create_canonical`
merges the candidate into an exact-matching canonical that already
existed: a fuzzy (containment) match on some other canonical is never
taken while an exact match exists anywhere in the graph. -/
theorem exact_match_priority (st : LinkerState) (ent : ExtractedEntity)
    (hreach : Reachable st) (k : Nat) (c : Canonical)
    (hmem : (k, c) ∈ st.canonical_entities)
    (hty : c.ctype = ent.entity_type)
    (hex : lowerStr c.normalized = candNorm ent) :
    ∃ can, ((find_or_create_canonical st ent).1, can) ∈ st.canonical_entities ∧
      can.ctype = ent.entity_type ∧ lowerStr can.normalized = candNorm ent := by
  obtain ⟨r, hscan, can, hmem', hcty, hcex⟩ :=
    scan_exact_hit ent st.canonical_entities (Inv_reachable hreach).noEarlier
      (k, c) hmem hty hex
  unfold find_or_create_canonical
  rw [hscan]
  exact ⟨can, hmem', hcty, hcex⟩

/-- C2 witness: in a graph holding the single canonical "Acme Corp"
(ORGANIZATION), the candidate "Acme Corp" resolves to an exact-matching
canonical. -/
theorem exact_match_priority_witness :
    ∃ can, ((find_or_create_canonical
        (add_entities emptyLinker
          [{ entity_type := .ORGANIZATION, raw_text := "Acme Corp".data,
             normalized_text := "Acme Corp".data, confidence := 1,
             context := [] }] "doc-1".data).1
        { entity_type := .ORGANIZATION, raw_text := "ACME CORP".data,
          normalized_text := "Acme Corp".data, confidence := 0,
          context := [] }).1, can) ∈
      (add_entities emptyLinker
        [{ entity_type := .ORGANIZATION, raw_text := "Acme Corp".data,
           normalized_text := "Acme Corp".data, confidence := 1,
           context := [] }] "doc-1".data).1.canonical_entities ∧
    can.ctype = EntityType.ORGANIZATION ∧
    lowerStr can.normalized = candNorm
      { entity_type := .ORGANIZATION, raw_text := "ACME CORP".data,
        normalized_text := "Acme Corp".data, confidence := 0, context := [] } :=
  exact_match_priority _ _
    (Reachable.add emptyLinker _ _ Reachable.empty) 0
    { cid := 0, ctype := .ORGANIZATION, normalized := "Acme Corp".data,
      aliases := ["Acme Corp".data], confidence := 1, first_seen := none }
    (by decide) (by decide) (by decide)

/-- C3 (code bug): a mention whose metadata carries no `source_doc` key —
which is the case for every freshly extracted entity, since
`add_entities` writes `source_doc` only *after* `_find_or_create_canonical`
has returned — creates its canonical with `first_seen = None`, not with
the `source_doc_id` passed to `add_entities`. -/
theorem first_seen_bug (ent : ExtractedEntity) (doc : Str)
    (hfresh : ent.metadata.source_doc = none) :
    ((add_entities emptyLinker [ent] doc).1.canonical_entities.map
      (fun p => p.2.first_seen)) = [none] ∧ (none : Option Str) ≠ some doc := by
  refine ⟨?_, by simp⟩
  simp [add_entities, find_or_create_canonical, scanCanonicals, emptyLinker, hfresh]

/-- C3 witness: a concrete fresh mention added to a fresh linker under
document id "doc-1" yields a canonical whose `first_seen` is `None`. -/
theorem first_seen_bug_witness :
    ((add_entities emptyLinker
      [{ entity_type := .PERSON, raw_text := "John Smith".data,
         normalized_text := "John Smith".data, confidence := 1,
         context := [] }] "doc-1".data).1.canonical_entities.map
      (fun p => p.2.first_seen)) = [none] ∧
    (none : Option Str) ≠ some "doc-1".data :=
  first_seen_bug _ "doc-1".data rfl

theorem find?_key_hit (pre post : List (Nat × Canonical)) (cid : Nat)
    (x : Canonical) (h : ∀ p ∈ pre, p.1 ≠ cid) :
    (pre ++ (cid, x) :: post).find? (fun p => p.1 == cid) = some (cid, x) := by
  rw [List.find?_append]
  have hpre : pre.find? (fun p => p.1 == cid) = none :=
    List.find?_eq_none.2 (fun p hp => by simp [h p hp])
  rw [hpre]
  simp

theorem find?_key_frame (pre post : List (Nat × Canonical)) (cid : Nat)
    (x y : Canonical) (k : Nat) (hk : k ≠ cid) :
    (pre ++ (cid, x) :: post).find? (fun p => p.1 == k) =
    (pre ++ (cid, y) :: post).find? (fun p => p.1 == k) := by
  have hcidk : (cid == k) = false := beq_eq_false_iff_ne.2 (Ne.symm hk)
  induction pre with
  | nil => simp [List.find?_cons, hcidk]
  | cons a pre ih =>
    simp only [List.cons_append, List.find?_cons]
    cases hpa : (a.1 == k) <;> simp [hpa, ih]

theorem pre_keys_ne {l pre post : List (Nat × Canonical)} {cid : Nat}
    {can : Canonical} (hmono : (l.map Prod.fst).Pairwise (· < ·))
    (h1 : l = pre ++ (cid, can) :: post) : ∀ p ∈ pre, p.1 ≠ cid := by
  subst h1
  simp only [List.map_append, List.map_cons] at hmono
  rw [List.pairwise_append] at hmono
  intro p hp
  exact Nat.ne_of_lt (hmono.2.2 p.1 (List.mem_map_of_mem _ hp) cid (by simp))

/-- C7: when a candidate merges into an existing canonical (the returned
id was already a key of the graph), the stored record is updated along
exactly one of two paths.  Exact-match path: the raw mention joins the
alias set and the confidence is raised to the max of the existing and
candidate confidences.  Fuzzy path: only the alias set is updated, the
confidence stays.  In both paths `id`, `type`, `normalized` and
`first_seen` are untouched, and every other canonical is left exactly as
it was. -/
theorem merge_update_paths (st : LinkerState) (ent : ExtractedEntity)
    (hreach : Reachable st) (cid : Nat) (st' : LinkerState)
    (hfoc : find_or_create_canonical st ent = (cid, st'))
    (can : Canonical) (hmem : lookupCan st cid = some can) :
    (lowerStr can.normalized = candNorm ent →
      lookupCan st' cid = some { can with
        aliases := addAlias can.aliases ent.raw_text
        confidence := max can.confidence ent.confidence }) ∧
    (lowerStr can.normalized ≠ candNorm ent →
      lookupCan st' cid = some { can with
        aliases := addAlias can.aliases ent.raw_text }) ∧
    (∀ k, k ≠ cid → lookupCan st' k = lookupCan st k) := by
  have hinv := Inv_reachable hreach
  cases hscan : scanCanonicals ent (candNorm ent) st.canonical_entities with
  | none =>
    exfalso
    have hfoc2 : find_or_create_canonical st ent
        = (st.nextId, { st with
            canonical_entities := st.canonical_entities ++
              [(st.nextId,
                { cid := st.nextId, ctype := ent.entity_type,
                  normalized := ent.normalized_text,
                  aliases := [ent.raw_text], confidence := ent.confidence,
                  first_seen := ent.metadata.source_doc })]
            nextId := st.nextId + 1 }) := by
      simp only [find_or_create_canonical, hscan]
    rw [hfoc] at hfoc2
    have hcid : cid = st.nextId := congrArg Prod.fst hfoc2
    rw [hcid] at hmem
    unfold lookupCan at hmem
    rw [Option.map_eq_some'] at hmem
    obtain ⟨p, hfind, _⟩ := hmem
    have hpmem := List.mem_of_find?_eq_some hfind
    have hpk : p.1 = st.nextId := by simpa using List.find?_some hfind
    exact absurd (hinv.keyslt p.1 (List.mem_map_of_mem _ hpmem))
      (by rw [hpk]; exact lt_irrefl _)
  | some r =>
    obtain ⟨cid₀, l'⟩ := r
    have hfoc2 : find_or_create_canonical st ent
        = (cid₀, { st with canonical_entities := l' }) := by
      simp only [find_or_create_canonical, hscan]
    rw [hfoc] at hfoc2
    have hcid : cid = cid₀ := congrArg Prod.fst hfoc2
    subst hcid
    have hstv : st' = { st with canonical_entities := l' } :=
      congrArg Prod.snd hfoc2
    obtain ⟨pre, can₀, post, h1, h2, _, _, _⟩ :=
      scanCanonicals_some ent (candNorm ent) _ _ _ hscan
    have hpre := pre_keys_ne hinv.keymono h1
    have hcan : can = can₀ := by
      unfold lookupCan at hmem
      rw [h1, find?_key_hit pre post cid can₀ hpre] at hmem
      simpa using hmem.symm
    subst hcan
    have hst' : st'.canonical_entities
        = pre ++ (cid, updateCan can ent (candNorm ent)) :: post := by
      rw [hstv]
      exact h2
    have hlook : lookupCan st' cid = some (updateCan can ent (candNorm ent)) := by
      unfold lookupCan
      rw [hst', find?_key_hit pre post cid _ hpre]
      rfl
    refine ⟨?_, ?_, ?_⟩
    · intro hx
      rw [hlook]
      unfold updateCan
      rw [if_pos hx]
    · intro hx
      rw [hlook]
      unfold updateCan
      rw [if_neg hx]
    · intro k hk
      unfold lookupCan
      rw [hst', h1, find?_key_frame pre post cid _ can k hk]

/-- C7 witness: merging the exact candidate "Acme Corp" (confidence 0)
into the canonical "Acme Corp" (confidence 1) adds the alias and sets the
confidence to `max 1 0 = 1`. -/
theorem merge_update_paths_witness :
    lookupCan (find_or_create_canonical
        (add_entities emptyLinker
          [{ entity_type := .ORGANIZATION, raw_text := "Acme Corp".data,
             normalized_text := "Acme Corp".data, confidence := 1,
             context := [] }] "doc-1".data).1
        { entity_type := .ORGANIZATION, raw_text := "ACME CORP".data,
          normalized_text := "Acme Corp".data, confidence := 0,
          context := [] }).2 0 = some
      { cid := 0, ctype := .ORGANIZATION, normalized := "Acme Corp".data,
        aliases := addAlias ["Acme Corp".data] "ACME CORP".data,
        confidence := max 1 0, first_seen := none } := by
  have h := merge_update_paths
    (add_entities emptyLinker
      [{ entity_type := .ORGANIZATION, raw_text := "Acme Corp".data,
         normalized_text := "Acme Corp".data, confidence := 1,
         context := [] }] "doc-1".data).1
    { entity_type := .ORGANIZATION, raw_text := "ACME CORP".data,
      normalized_text := "Acme Corp".data, confidence := 0, context := [] }
    (Reachable.add emptyLinker _ _ Reachable.empty)
    (find_or_create_canonical
      (add_entities emptyLinker
        [{ entity_type := .ORGANIZATION, raw_text := "Acme Corp".data,
           normalized_text := "Acme Corp".data, confidence := 1,
           context := [] }] "doc-1".data).1
      { entity_type := .ORGANIZATION, raw_text := "ACME CORP".data,
        normalized_text := "Acme Corp".data, confidence := 0,
        context := [] }).1
    (find_or_create_canonical
      (add_entities emptyLinker
        [{ entity_type := .ORGANIZATION, raw_text := "Acme Corp".data,
           normalized_text := "Acme Corp".data, confidence := 1,
           context := [] }] "doc-1".data).1
      { entity_type := .ORGANIZATION, raw_text := "ACME CORP".data,
        normalized_text := "Acme Corp".data, confidence := 0,
        context := [] }).2
    rfl
    { cid := 0, ctype := .ORGANIZATION, normalized := "Acme Corp".data,
      aliases := ["Acme Corp".data], confidence := 1, first_seen := none }
    (by decide)
  exact h.1 (by decide)

/-- After `_find_or_create_canonical`, the returned id resolves to a
canonical of exactly the mention's entity type. -/
theorem foc_id_lookup (st : LinkerState) (ent : ExtractedEntity) (hinv : Inv st) :
    ∃ c, lookupCan (find_or_create_canonical st ent).2
        (find_or_create_canonical st ent).1 = some c ∧
      c.ctype = ent.entity_type := by
  cases hscan : scanCanonicals ent (candNorm ent) st.canonical_entities with
  | none =>
    have hfoc2 : find_or_create_canonical st ent
        = (st.nextId, { st with
            canonical_entities := st.canonical_entities ++
              [(st.nextId,
                { cid := st.nextId, ctype := ent.entity_type,
                  normalized := ent.normalized_text,
                  aliases := [ent.raw_text], confidence := ent.confidence,
                  first_seen := ent.metadata.source_doc })]
            nextId := st.nextId + 1 }) := by
      simp only [find_or_create_canonical, hscan]
    rw [hfoc2]
    refine ⟨({ cid := st.nextId, ctype := ent.entity_type,
               normalized := ent.normalized_text, aliases := [ent.raw_text],
               confidence := ent.confidence,
               first_seen := ent.metadata.source_doc } : Canonical), ?_, rfl⟩
    unfold lookupCan
    simp only [List.find?_append]
    have hnone : st.canonical_entities.find? (fun p => p.1 == st.nextId) = none :=
      List.find?_eq_none.2 (fun p hp => by
        simp only [beq_iff_eq]
        exact Nat.ne_of_lt (hinv.keyslt p.1 (List.mem_map_of_mem _ hp)))
    rw [hnone]
    simp
  | some r =>
    obtain ⟨cid, l'⟩ := r
    have hfoc2 : find_or_create_canonical st ent
        = (cid, { st with canonical_entities := l' }) := by
      simp only [find_or_create_canonical, hscan]
    rw [hfoc2]
    obtain ⟨pre, can₀, post, h1, h2, h3, _, _⟩ :=
      scanCanonicals_some ent (candNorm ent) _ _ _ hscan
    have hpre := pre_keys_ne hinv.keymono h1
    refine ⟨updateCan can₀ ent (candNorm ent), ?_, by rw [updateCan_ctype]; exact h3⟩
    unfold lookupCan
    show ((l'.find? fun p => p.1 == cid).map Prod.snd) = _
    rw [h2, find?_key_hit pre post cid _ hpre]
    rfl

/-- `_find_or_create_canonical` never changes the entity type (nor the
id) a stored canonical id resolves to. -/
theorem foc_preserves_ctype (st : LinkerState) (ent : ExtractedEntity)
    (hinv : Inv st) (k : Nat) (c : Canonical) (hk : lookupCan st k = some c) :
    ∃ c', lookupCan (find_or_create_canonical st ent).2 k = some c' ∧
      c'.ctype = c.ctype := by
  cases hscan : scanCanonicals ent (candNorm ent) st.canonical_entities with
  | none =>
    have hfoc2 : find_or_create_canonical st ent
        = (st.nextId, { st with
            canonical_entities := st.canonical_entities ++
              [(st.nextId,
                { cid := st.nextId, ctype := ent.entity_type,
                  normalized := ent.normalized_text,
                  aliases := [ent.raw_text], confidence := ent.confidence,
                  first_seen := ent.metadata.source_doc })]
            nextId := st.nextId + 1 }) := by
      simp only [find_or_create_canonical, hscan]
    rw [hfoc2]
    refine ⟨c, ?_, rfl⟩
    unfold lookupCan at hk ⊢
    rw [Option.map_eq_some'] at hk
    obtain ⟨p, hfind, hps⟩ := hk
    simp only [List.find?_append, hfind]
    simp [hps]
  | some r =>
    obtain ⟨cid, l'⟩ := r
    have hfoc2 : find_or_create_canonical st ent
        = (cid, { st with canonical_entities := l' }) := by
      simp only [find_or_create_canonical, hscan]
    rw [hfoc2]
    obtain ⟨pre, can₀, post, h1, h2, _, _, _⟩ :=
      scanCanonicals_some ent (candNorm ent) _ _ _ hscan
    have hpre := pre_keys_ne hinv.keymono h1
    by_cases hkc : k = cid
    · subst hkc
      have hc : c = can₀ := by
        unfold lookupCan at hk
        rw [h1, find?_key_hit pre post k can₀ hpre] at hk
        simpa using hk.symm
      subst hc
      refine ⟨updateCan c ent (candNorm ent), ?_, updateCan_ctype _ _ _⟩
      unfold lookupCan
      show ((l'.find? fun p => p.1 == k).map Prod.snd) = _
      rw [h2, find?_key_hit pre post k _ hpre]
      rfl
    · refine ⟨c, ?_, rfl⟩
      unfold lookupCan at hk ⊢
      show ((l'.find? fun p => p.1 == k).map Prod.snd) = _
      rw [h2, find?_key_frame pre post cid _ can₀ k hkc, ← h1]
      exact hk

/-- C8: type isolation.  A mention is only ever merged into a canonical
of its own entity type, so two mentions with identical text but different
types — submitted together to `add_entities` — are always recorded under
two distinct canonical ids. -/
theorem type_isolation (st : LinkerState) (hreach : Reachable st)
    (e1 e2 : ExtractedEntity) (doc : Str)
    (hty : e1.entity_type ≠ e2.entity_type) :
    ∃ c1 c2 : Nat,
      (add_entities st [e1, e2] doc).2.map (fun e => e.metadata.canonical_id)
        = [some c1, some c2] ∧ c1 ≠ c2 := by
  have hinv := Inv_reachable hreach
  refine ⟨(find_or_create_canonical st e1).1,
    (find_or_create_canonical (find_or_create_canonical st e1).2 e2).1,
    by simp [add_entities], ?_⟩
  obtain ⟨c1can, h1l, h1t⟩ := foc_id_lookup st e1 hinv
  have hinv1 := Inv_foc st e1 hinv
  obtain ⟨c2can, h2l, h2t⟩ := foc_id_lookup (find_or_create_canonical st e1).2 e2 hinv1
  obtain ⟨c1can', h1l', h1t'⟩ :=
    foc_preserves_ctype (find_or_create_canonical st e1).2 e2 hinv1 _ c1can h1l
  intro heq
  rw [heq, h2l] at h1l'
  have : c2can = c1can' := by simpa using h1l'
  rw [← this] at h1t'
  rw [h2t] at h1t'
  rw [h1t] at h1t'
  exact hty h1t'.symm

/-- C8 witness: "Washington" as LOCATION and "Washington" as PERSON,
added together to a fresh linker, get two distinct canonical ids. -/
theorem type_isolation_witness :
    ∃ c1 c2 : Nat,
      (add_entities emptyLinker
        [{ entity_type := .LOCATION, raw_text := "Washington".data,
           normalized_text := "Washington".data, confidence := 1,
           context := [] },
         { entity_type := .PERSON, raw_text := "Washington".data,
           normalized_text := "Washington".data, confidence := 1,
           context := [] }] "doc-1".data).2.map
        (fun e => e.metadata.canonical_id) = [some c1, some c2] ∧ c1 ≠ c2 :=
  type_isolation emptyLinker Reachable.empty _ _ "doc-1".data (by decide)

/-- The id returned by `_find_or_create_canonical` is a key of the
canonical-entity collection of the resulting state. -/
theorem foc_key_mem (st : LinkerState) (ent : ExtractedEntity) :
    (find_or_create_canonical st ent).1 ∈
      (find_or_create_canonical st ent).2.canonical_entities.map Prod.fst := by
  cases hscan : scanCanonicals ent (candNorm ent) st.canonical_entities with
  | none =>
    simp only [find_or_create_canonical, hscan]
    simp
  | some r =>
    obtain ⟨cid, l'⟩ := r
    obtain ⟨pre, can₀, post, _, h2, _, _, _⟩ :=
      scanCanonicals_some ent (candNorm ent) _ _ _ hscan
    simp only [find_or_create_canonical, hscan]
    rw [h2]
    simp

/-- `_find_or_create_canonical` never removes a key. -/
theorem foc_keys_grow (st : LinkerState) (ent : ExtractedEntity) (k : Nat)
    (hk : k ∈ st.canonical_entities.map Prod.fst) :
    k ∈ (find_or_create_canonical st ent).2.canonical_entities.map Prod.fst := by
  cases hscan : scanCanonicals ent (candNorm ent) st.canonical_entities with
  | none =>
    simp only [find_or_create_canonical, hscan]
    simp only [List.map_append, List.mem_append]
    exact Or.inl hk
  | some r =>
    obtain ⟨cid, l'⟩ := r
    obtain ⟨pre, can₀, post, h1, h2, _, _, _⟩ :=
      scanCanonicals_some ent (candNorm ent) _ _ _ hscan
    simp only [find_or_create_canonical, hscan]
    have hkeys : l'.map Prod.fst = st.canonical_entities.map Prod.fst := by
      rw [h1, h2]; simp
    show k ∈ l'.map Prod.fst
    rw [hkeys]
    exact hk

/-- `add_entities` never removes a key. -/
theorem add_keys_grow (ents : List ExtractedEntity) :
    ∀ (st : LinkerState) (doc : Str) (k : Nat),
    k ∈ st.canonical_entities.map Prod.fst →
    k ∈ (add_entities st ents doc).1.canonical_entities.map Prod.fst := by
  induction ents with
  | nil => intro st doc k hk; exact hk
  | cons e rest ih =>
    intro st doc k hk
    exact ih (find_or_create_canonical st e).2 doc k (foc_keys_grow st e k hk)

/-- Every entity returned by `add_entities` carries in its metadata a
`canonical_id` that is a key of the resulting canonical-entity
collection. -/
theorem add_canonical_ids (ents : List ExtractedEntity) :
    ∀ (st : LinkerState) (doc : Str),
    ∀ e' ∈ (add_entities st ents doc).2,
      ∃ k, e'.metadata.canonical_id = some k ∧
        k ∈ (add_entities st ents doc).1.canonical_entities.map Prod.fst := by
  induction ents with
  | nil => intro st doc e' he'; simp [add_entities] at he'
  | cons e rest ih =>
    intro st doc e' he'
    rw [show (add_entities st (e :: rest) doc).2
        = { e with metadata :=
              { e.metadata with
                canonical_id := some (find_or_create_canonical st e).1
                source_doc := some doc } } ::
          (add_entities (find_or_create_canonical st e).2 rest doc).2
      from rfl] at he'
    rcases List.mem_cons.1 he' with he' | he'
    · subst he'
      refine ⟨(find_or_create_canonical st e).1, rfl, ?_⟩
      rw [show (add_entities st (e :: rest) doc).1
          = (add_entities (find_or_create_canonical st e).2 rest doc).1 from rfl]
      exact add_keys_grow rest (find_or_create_canonical st e).2 doc _
        (foc_key_mem st e)
    · rw [show (add_entities st (e :: rest) doc).1
          = (add_entities (find_or_create_canonical st e).2 rest doc).1 from rfl]
      exact ih (find_or_create_canonical st e).2 doc e' he'

/-- C10: graph well-formedness of every reachable linker state: each
stored canonical record's `id` field equals its key and its alias set is
non-empty; every id returned by `_find_or_create_canonical` is a key of
the resulting collection; every `canonical_id` recorded by `add_entities`
in a mention's metadata is a key of the resulting collection;
`link_entities` leaves the canonical-entity collection untouched (and
`export_graph`, modelled as a pure function of the state, reads it
without modification). -/
theorem linker_graph_wf (st : LinkerState) (hreach : Reachable st) :
    (∀ p ∈ st.canonical_entities, p.2.cid = p.1 ∧ p.2.aliases ≠ []) ∧
    (∀ ent : ExtractedEntity, (find_or_create_canonical st ent).1 ∈
      (find_or_create_canonical st ent).2.canonical_entities.map Prod.fst) ∧
    (∀ (ents : List ExtractedEntity) (doc : Str),
      ∀ e' ∈ (add_entities st ents doc).2,
        ∃ k, e'.metadata.canonical_id = some k ∧
          k ∈ (add_entities st ents doc).1.canonical_entities.map Prod.fst) ∧
    (∀ (s t : Nat) (rel : Str) (conf : ConfidenceLevel) (ev : Str),
      (link_entities st s t rel conf ev).canonical_entities
        = st.canonical_entities) := by
  have hinv := Inv_reachable hreach
  refine ⟨fun p hp => ⟨hinv.ideq p hp, hinv.aliasne p hp⟩,
    fun ent => foc_key_mem st ent,
    fun ents doc e' he' => add_canonical_ids ents st doc e' he',
    fun s t rel conf ev => rfl⟩

/-- C10 witness: in the concrete one-canonical state reached by adding
"John Smith", `link_entities` does not change the canonical-entity
collection (instantiating the well-formedness theorem there). -/
theorem linker_graph_wf_witness :
    (link_entities
      (add_entities emptyLinker
        [{ entity_type := .PERSON, raw_text := "John Smith".data,
           normalized_text := "John Smith".data, confidence := 1,
           context := [] }] "doc-1".data).1
      0 0 "works_for".data ConfidenceLevel.CONFIRMED "ev".data).canonical_entities
    = (add_entities emptyLinker
        [{ entity_type := .PERSON, raw_text := "John Smith".data,
           normalized_text := "John Smith".data, confidence := 1,
           context := [] }] "doc-1".data).1.canonical_entities :=
  (linker_graph_wf _ (Reachable.add emptyLinker _ _ Reachable.empty)).2.2.2
    0 0 "works_for".data ConfidenceLevel.CONFIRMED "ev".data

/-- C9: `RedactionDetector.analyze` emits one `{code, description,
count}` record per exemption pattern of its fixed table with at least one
case-insensitive match — with `count` the number of matches of that
pattern and nothing else emitted — and `total_exemption_citations` is the
sum of the emitted counts; on the example text containing `"(b)(1)"`
twice and `"(B)(6)"` once, the counts are 2 and 1 and the total is 3. -/
theorem redaction_analyze_spec (text : Str) :
    (∀ pat desc, (pat, desc) ∈ EXEMPTION_PATTERNS →
      0 < ciCount pat text →
      ({ code := pat, description := desc,
         count := ciCount pat text } : ExemptionRecord)
        ∈ (analyze text).exemptions_cited) ∧
    (∀ r ∈ (analyze text).exemptions_cited,
      (r.code, r.description) ∈ EXEMPTION_PATTERNS ∧ 0 < r.count ∧
        r.count = ciCount r.code text) ∧
    ((analyze text).total_exemption_citations
      = ((analyze text).exemptions_cited.map (fun r => r.count)).sum) ∧
    (analyze "Withheld under (b)(1). See (b)(1) and (B)(6).".data
      = { exemptions_cited :=
            [{ code := "(b)(1)".data, description := "National security".data,
               count := 2 },
             { code := "(b)(6)".data, description := "Personal privacy".data,
               count := 1 }]
          total_exemption_citations := 3 }) := by
  refine ⟨?_, ?_, rfl, by decide⟩
  · intro pat desc hmem hpos
    unfold analyze
    refine List.mem_filterMap.2 ⟨(pat, desc), hmem, ?_⟩
    rw [if_neg (show ¬ ciCount pat text = 0 from Nat.pos_iff_ne_zero.1 hpos)]
  · intro r hr
    unfold analyze at hr
    obtain ⟨⟨pat, desc⟩, hmem, hf⟩ := List.mem_filterMap.1 hr
    by_cases h0 : ciCount pat text = 0
    · rw [if_pos h0] at hf
      exact absurd hf (by simp)
    · rw [if_neg h0] at hf
      obtain rfl := Option.some.injEq .. ▸ hf
      exact ⟨hmem, Nat.pos_of_ne_zero h0, rfl⟩

/-- C9 witness: on the example text, the pattern `"(b)(1)"` (present with
a positive count) yields its record in `exemptions_cited`. -/
theorem redaction_analyze_spec_witness :
    ({ code := "(b)(1)".data, description := "National security".data,
       count := ciCount "(b)(1)".data
         "Withheld under (b)(1). See (b)(1) and (B)(6).".data } : ExemptionRecord)
      ∈ (analyze "Withheld under (b)(1). See (b)(1) and (B)(6).".data).exemptions_cited :=
  (redaction_analyze_spec
    "Withheld under (b)(1). See (b)(1) and (B)(6).".data).1
    "(b)(1)".data "National security".data (by decide) (by decide)

end OpenFoia
